import Mathlib

/-!
Verification of the dep-dl downloader (main.go) against its specification.

The Go program is shallowly embedded: each Go function that the claims
touch is translated into a computable Lean definition operating on
explicit data (strings as `String`, byte streams as `List Nat`,
the filesystem as `List String → Option Node`).  Network and process
effects are modelled by passing the data they would produce (the parsed
token stream of the discovery page, the decoded tar entry list) as
arguments, and by returning a tagged outcome describing which external
action the code performs.
-/

namespace DepDl

/-! ### String helpers (models of Go string/path primitives)

All character-level work is done on `List Char` with structural
recursion so that every definition reduces in the kernel.
-/

/-- Model of `strings.Split(s, "/")` at the character level:
splits on every separator, keeping empty pieces. -/
def splitChar (sep : Char) : List Char → List (List Char)
  | [] => [[]]
  | c :: cs =>
    if c = sep then [] :: splitChar sep cs
    else
      match splitChar sep cs with
      | [] => [[c]]
      | g :: gs => (c :: g) :: gs

/-- Model of `strings.Split(name, "/")`. -/
def splitSlash (s : String) : List String :=
  (splitChar '/' s.toList).map String.mk

/-- Interleave `'/'` between the pieces (used to model `filepath.Join`
on a list of path elements). -/
def interSlash : List (List Char) → List Char
  | [] => []
  | [x] => x
  | x :: y :: rest => x ++ '/' :: interSlash (y :: rest)

/-- Model of `filepath.Join(elems...)` on already-split path elements.
`filepath.Join` drops empty elements and cleans the result; segments
`"."` and `".."` are outside the modelled domain (the theorems that
quantify over names restrict to segments that are neither). -/
def joinRel (l : List String) : String :=
  String.mk (interSlash ((l.filter (fun s => ¬ s = "")).map String.toList))

/-- `charsPfx p s` holds when the char list `p` is an initial segment of
`s` (model of `strings.HasPrefix`). -/
def charsPfx : List Char → List Char → Bool
  | [], _ => true
  | a :: as, t =>
    match t with
    | [] => false
    | b :: bs => a == b && charsPfx as bs

/-- Model of `strings.HasPrefix(s, p)`. -/
def hasPfx (p s : String) : Bool :=
  charsPfx p.toList s.toList

/-- ASCII lower-casing of a string, modelling `strings.ToLower` on the
ASCII inputs the program compares ("git", tag names). -/
def lowerStr (s : String) : String :=
  String.mk (s.toList.map Char.toLower)

/-- Model of `strings.EqualFold` (ASCII folding suffices for the
tag/attribute names the program compares). -/
def eqFold (a b : String) : Bool :=
  a.toList.map Char.toLower == b.toList.map Char.toLower

/-- The white-space characters of `unicode.IsSpace` that matter for the
ASCII meta-tag contents the program splits (`strings.Fields`). -/
def isSpaceGo (c : Char) : Bool :=
  c = ' ' || c = '\t' || c = '\n' || c = '\r' || c = '\x0b' || c = '\x0c'

/-- Accumulating worker for `goFields`. -/
def goFieldsAux (acc : List Char) : List Char → List (List Char)
  | [] => if acc = [] then [] else [acc.reverse]
  | c :: cs =>
    if isSpaceGo c then
      if acc = [] then goFieldsAux [] cs else acc.reverse :: goFieldsAux [] cs
    else goFieldsAux (c :: acc) cs

/-- Model of `strings.Fields`: split around runs of white space. -/
def goFields (s : String) : List String :=
  (goFieldsAux [] s.toList).map String.mk

/-! ### The two regular expressions

`githubRegexp = "github.com/(?P<user>[^/ \n]+)/(?P<repo>[^/ \n]+)"` and
`gopkgRegexp = "gopkg.in/(.+)"`, both used unanchored through
`FindStringSubmatch` (leftmost match).  Both patterns are deterministic
enough that greedy matching needs no backtracking: the character classes
exclude the delimiter that must follow them, so the maximal run is the
only candidate.  `.` in Go regexps matches any character except `'\n'`.
-/

/-- Characters admitted by the class `[^/ \n]`. -/
def nameChar (c : Char) : Bool :=
  ¬ c = '/' && ¬ c = ' ' && ¬ c = '\n'

/-- Try to match `githubRegexp` at the head of the character list.
Returns `(whole match, user group, repo group)` on success. -/
def ghHead : List Char → Option (List Char × List Char × List Char)
  | 'g' :: 'i' :: 't' :: 'h' :: 'u' :: 'b' :: d :: 'c' :: 'o' :: 'm' :: '/' :: rest =>
    if d = '\n' then none
    else
      let user := rest.takeWhile nameChar
      match rest.dropWhile nameChar with
      | '/' :: rest2 =>
        let repo := rest2.takeWhile nameChar
        if user = [] || repo = [] then none
        else
          some ('g' :: 'i' :: 't' :: 'h' :: 'u' :: 'b' :: d :: 'c' :: 'o' :: 'm' :: '/' ::
            (user ++ '/' :: repo), user, repo)
      | _ => none
  | _ => none

/-- Scan for the leftmost match of `githubRegexp`. -/
def ghFindAux : List Char → Option (List Char × List Char × List Char)
  | [] => none
  | c :: cs =>
    match ghHead (c :: cs) with
    | some r => some r
    | none => ghFindAux cs

/-- Model of `githubRegexp.FindStringSubmatch`: `some (m, user, repo)`
with `m` the whole matched substring, or `none` when no match. -/
def githubFind (s : String) : Option (String × String × String) :=
  (ghFindAux s.toList).map fun x => (String.mk x.1, String.mk x.2.1, String.mk x.2.2)

/-- Try to match `gopkgRegexp` at the head of the character list. -/
def gpHead : List Char → Bool
  | 'g' :: 'o' :: 'p' :: 'k' :: 'g' :: d :: 'i' :: 'n' :: '/' :: rest =>
    if d = '\n' then false
    else
      match rest with
      | [] => false
      | e :: _ => ¬ e = '\n'
  | _ => false

/-- Scan for a match of `gopkgRegexp` anywhere in the list. -/
def gpFindAux : List Char → Bool
  | [] => false
  | c :: cs => gpHead (c :: cs) || gpFindAux cs

/-- Model of `gopkgRegexp.FindStringSubmatch(src) != nil`. -/
def gopkgMatches (s : String) : Bool :=
  gpFindAux s.toList

/-! ### The data model: one manifest entry (`project` in main.go) -/

/-- One dependency entry of the lock manifest (`type project` of
main.go, without the derived `subdirTable` cache, which is modelled by
`allowSet`/`subdirLookup` below). -/
structure Project where
  name : String
  branch : String
  revision : String
  version : String
  source : String
  packages : List String
  deriving DecidableEq

/-- The keys inserted into `pj.subdirTable` at the start of
`download`: each package, with `"."` replaced by `""`. -/
def allowSet (pj : Project) : List String :=
  pj.packages.map (fun d => if d = "." then "" else d)

/-- Model of the map lookup `pj.subdirTable[pkg]` (a missing key reads
as `false`). -/
def subdirLookup (pj : Project) (k : String) : Bool :=
  (allowSet pj).contains k

/-! ### Archive extraction (`dlGithub`)

The tarball is modelled as the list of decoded entries; download,
gzip and tar decoding errors are outside the model.  The filesystem is
a map from slash-split, cleaned paths (relative to the working
directory) to nodes.
-/

/-- Tar entry type flags handled by the switch in `dlGithub`
(`TypeReg` and `TypeRegA` behave identically there and share the `reg`
constructor; every other flag falls through the switch untouched and is
modelled by `other`). -/
inductive TarType where
  | reg
  | dir
  | symlink
  | other
  deriving DecidableEq

/-- One decoded tar header plus its content bytes. -/
structure TarEntry where
  name : String
  typeflag : TarType
  linkname : String
  content : List Nat
  mode : Nat
  deriving DecidableEq

/-- A filesystem node.  Access/modification times are not modelled:
`dlGithub` restores them with `os.Chtimes` whose error is ignored, and
no claim mentions them. -/
inductive Node where
  | file (content : List Nat) (mode : Nat)
  | dir
  | link (dest : List String)
  deriving DecidableEq

/-- Paths are lists of non-empty segments relative to the working
directory (the model conflates absolute and relative paths under one
root). -/
abbrev Path := List String

/-- The filesystem: a partial map from paths to nodes. -/
abbrev FS := Path → Option Node

/-- The empty filesystem. -/
def fsEmpty : FS := fun _ => none

/-- Point update of the filesystem. -/
def fsUpdate (s : FS) (t : Path) (v : Node) : FS :=
  fun p => if p == t then some v else s p

/-- `pathLe a b` holds when `a` is an initial segment of `b` (so `b`
is `a` itself or lies below the directory `a`). -/
def pathLe : Path → Path → Bool
  | [], _ => true
  | x :: xs, q =>
    match q with
    | [] => false
    | y :: ys => x == y && pathLe xs ys

/-- Model of `os.RemoveAll(b)`: drop `b` and everything below it. -/
def removeAllUnder (b : Path) (s : FS) : FS :=
  fun p => if pathLe b p then none else s p

/-- Model of `os.MkdirAll(t, ...)`: create the missing directories on
the way to `t`, leaving existing nodes alone.  The OS call's failure
modes (a regular file occupying a component) are not modelled; the
code tolerates the already-exists outcome. -/
def mkdirAll (t : Path) (s : FS) : FS :=
  fun p =>
    match s p with
    | some v => some v
    | none => if pathLe p t then some Node.dir else none

/-- `baseDir = filepath.Join(vendorDir, pj.Name)` with
`vendorDir = filepath.Join(wd, "vendor")`, as a path relative to the
working directory. -/
def basePath (pj : Project) : Path :=
  "vendor" :: (splitSlash pj.name).filter (fun s => ¬ s = "")

/-- The path at which `os.Symlink` creates the link: the entry's
`Linkname` field taken as a path. -/
def linkPath (e : TarEntry) : Path :=
  (splitSlash e.linkname).filter (fun s => ¬ s = "")

/-- The segments of `filepath.Join(nameDirs[1:]...)`: the stored path
with its first segment stripped and empty segments dropped. -/
def targetRel (nameDirs : List String) : List String :=
  (nameDirs.drop 1).filter (fun s => ¬ s = "")

/-- The absolute target path
`target = filepath.Join(baseDir, filepath.Join(nameDirs[1:]...))`. -/
def targetAbs (pj : Project) (e : TarEntry) : Path :=
  basePath pj ++ targetRel (splitSlash e.name)

/-- The filter of the extraction loop: `true` when the entry reaches
the write switch.  It skips (`continue`) when the stored path has more
than two segments and the joined intermediate path is not in the
package table, and when the computed target equals `baseDir`. -/
def entryKept (pj : Project) (name : String) : Bool :=
  (if (splitSlash name).length > 2 then
      subdirLookup pj (joinRel ((splitSlash name).drop 1).dropLast)
    else true)
    && ¬ (targetRel (splitSlash name)).isEmpty

/-- Overlay semantics of writing through a file opened with
`os.O_RDWR|os.O_CREATE` (no `O_TRUNC`): the new bytes overwrite the
front of the old content, a longer old tail survives. -/
def overlay (new old : List Nat) : List Nat :=
  new ++ old.drop new.length

/-- One iteration of the extraction loop for one tar entry:
`none` models an error return from `dlGithub`, `some s` the next
filesystem state.  Creating a regular file where a directory or link
sits is the modelled error of `os.OpenFile`/`io.Copy`; `os.Symlink`
fails when its link path already exists.  Missing parent directories
are not modelled as failures. -/
def extractStep (pj : Project) (s : FS) (e : TarEntry) : Option FS :=
  if entryKept pj e.name then
    match e.typeflag with
    | TarType.reg =>
      match s (targetAbs pj e) with
      | some (Node.file old oldMode) =>
        some (fsUpdate s (targetAbs pj e) (Node.file (overlay e.content old) oldMode))
      | some Node.dir => none
      | some (Node.link _) => none
      | none => some (fsUpdate s (targetAbs pj e) (Node.file e.content e.mode))
    | TarType.dir => some (mkdirAll (targetAbs pj e) s)
    | TarType.symlink =>
      match s (linkPath e) with
      | some _ => none
      | none => some (fsUpdate s (linkPath e) (Node.link (targetAbs pj e)))
    | TarType.other => some s
  else some s

/-- Run the extraction loop over the entry list; the `Bool` is `true`
on success, and on error the partially populated filesystem is kept
(the Go function returns the error with whatever was written). -/
def foldSteps (pj : Project) : FS → List TarEntry → FS × Bool
  | s, [] => (s, true)
  | s, e :: es =>
    match extractStep pj s e with
    | none => (s, false)
    | some s2 => foldSteps pj s2 es

/-- The filesystem part of `dlGithub` for an already-decoded archive:
remove the target directory recursively, recreate it, then extract
every entry in order. -/
def extractRun (pj : Project) (ents : List TarEntry) (s : FS) : FS × Bool :=
  foldSteps pj (mkdirAll (basePath pj) (removeAllUnder (basePath pj) s)) ents

/-- The resulting tree under the target root: the filesystem restricted
to `basePath pj` and everything below it. -/
def restrictBase (pj : Project) (s : FS) : FS :=
  fun p => if pathLe (basePath pj) p then s p else none

/-! ### Meta-import discovery (`parseMetaGoImports`, `getGoImports`)

The XML decoder is external; its token stream is the model's input.
An attribute is a `(local name, value)` pair.  Decoder errors are
outside the token-list model: in the Go code an error arriving after at
least one import was collected is discarded (`err = nil`), and one
arriving before is surfaced through the same error return as a failed
GET, which the claims treat as the transport layer.
-/

/-- The parsed `<meta name="go-import" content="prefix vcs reporoot">`
tag (`type metaImport` of main.go); the field `Pfx` models the
struct's first field, the declared import path. -/
structure metaImport where
  Pfx : String
  VCS : String
  RepoRoot : String
  deriving DecidableEq

/-- One token of the decoder stream, as observed by the parse loop. -/
inductive XmlToken where
  | startElem (name : String) (attrs : List (String × String))
  | endElem (name : String)
  | other
  deriving DecidableEq

/-- Model of `attrValue`: the value of the first attribute whose name
matches case-insensitively, else `""`. -/
def attrValue (attrs : List (String × String)) (name : String) : String :=
  match attrs.find? (fun a => eqFold a.1 name) with
  | some a => a.2
  | none => ""

/-- The `go-import` part of the meta-tag handling: append a new import
when the tag is named `go-import` and its content splits into exactly
three fields. -/
def goImportStep (acc : List metaImport) (attrs : List (String × String)) : List metaImport :=
  if ¬ attrValue attrs "name" = "go-import" then acc
  else
    match goFields (attrValue attrs "content") with
    | [a, b, c] => acc ++ [⟨a, b, c⟩]
    | _ => acc

/-- Handling of one `<meta>` start element: the special `go-source`
rule (replace the single collected import by a github-derived one when
the content matches `githubRegexp`), else the `go-import` rule. -/
def metaTagStep (acc : List metaImport) (attrs : List (String × String)) : List metaImport :=
  if attrValue attrs "name" = "go-source" then
    match acc, githubFind (attrValue attrs "content") with
    | [i0], some (m, _, _) => [⟨i0.Pfx, "git", m⟩]
    | _, _ => goImportStep acc attrs
  else goImportStep acc attrs

/-- The outcome of one iteration of the parse loop: stop scanning, or
continue with an updated import list. -/
inductive Step where
  | halt
  | cont (acc : List metaImport)
  deriving DecidableEq

/-- One iteration of the loop in `parseMetaGoImports`: stop at a
`<body>` start or `</head>` end, process `<meta>` start elements,
ignore everything else. -/
def parseStep (acc : List metaImport) (t : XmlToken) : Step :=
  match t with
  | XmlToken.startElem n attrs =>
    if eqFold n "body" then Step.halt
    else if eqFold n "meta" then Step.cont (metaTagStep acc attrs)
    else Step.cont acc
  | XmlToken.endElem n =>
    if eqFold n "head" then Step.halt
    else Step.cont acc
  | XmlToken.other => Step.cont acc

/-- The parse loop over the token stream. -/
def parseGo (acc : List metaImport) : List XmlToken → List metaImport
  | [] => acc
  | t :: ts =>
    match parseStep acc t with
    | Step.halt => acc
    | Step.cont acc2 => parseGo acc2 ts

/-- Model of `parseMetaGoImports`: the imports collected from the token
stream of the discovery page. -/
def parseMetaGoImports (toks : List XmlToken) : List metaImport :=
  parseGo [] toks

/-- Plain-space interleaving, for the `%v` rendering of a slice. -/
def interSpace : List String → String
  | [] => ""
  | [x] => x
  | x :: y :: rest => x ++ " " ++ interSpace (y :: rest)

/-- The `fmt` `%v` rendering of a `[]metaImport` slice, as interpolated
into the ambiguity error of `getGoImports`. -/
def goFormatImports (l : List metaImport) : String :=
  "[" ++ interSpace (l.map fun i => "\x7b" ++ i.Pfx ++ " " ++ i.VCS ++ " " ++ i.RepoRoot ++ "\x7d") ++ "]"

/-- Model of `getGoImports` after the GET succeeded: exactly one
collected import is returned, any other count is the ambiguity error
naming the collected candidates. -/
def getGoImports (toks : List XmlToken) : Except String metaImport :=
  match parseMetaGoImports toks with
  | [i] => Except.ok i
  | l => Except.error ("Too many imports: " ++ goFormatImports l)

/-! ### Raw VCS fetch (`dlGit`) and the per-entry `download` flow -/

/-- The externally visible actions of `dlGit`, in order. -/
inductive Eff where
  | archiveFetch (user repo : String)
  | mkdirParent
  | removeAll
  | gitClone (url : String)
  | gitReset (rev : String)
  deriving DecidableEq

/-- Model of `dlGit` as the plan of external actions it dispatches: a
path matching `githubRegexp` is delegated to `dlGithub` with the two
captured groups and nothing else runs; otherwise the parent directory
is created, the target removed, and the external git client is invoked
for clone then reset.  (A failing clone aborts before the reset; the
plan lists the actions the code issues on the successful path.) -/
def dlGit (pj : Project) (path : String) : List Eff :=
  match githubFind path with
  | some (_, u, r) => [Eff.archiveFetch u r]
  | none => [Eff.mkdirParent, Eff.removeAll, Eff.gitClone path, Eff.gitReset pj.revision]

/-- The source string `download` classifies: the explicit `Source`
field when non-empty, else the entry name. -/
def srcOf (pj : Project) : String :=
  if pj.source.length = 0 then pj.name else pj.source

/-- Which fetch `download` dispatches for an entry (the panics are the
error outcomes).  `archive` is the direct `dlGithub` call, `git` the
`dlGit` call of the gopkg branch, `gitMeta` the `dlGit` call on the
discovered repo root, `errVCS` the unsupported-VCS panic and `errMeta`
the panic on a discovery error. -/
inductive Outcome where
  | archive (user repo : String)
  | git (url : String)
  | gitMeta (repoRoot : String)
  | errVCS (msg : String)
  | errMeta (msg : String)
  deriving DecidableEq

/-- Model of the control flow of `download` for one entry, with the
already-fetched discovery token stream as input for the fallthrough
branch. -/
def download (pj : Project) (toks : List XmlToken) : Outcome :=
  match githubFind (srcOf pj) with
  | some (_, u, r) => Outcome.archive u r
  | none =>
    if gopkgMatches (srcOf pj) then
      Outcome.git (if hasPfx "https://" (srcOf pj) then "" else "https://" ++ srcOf pj)
    else
      match getGoImports toks with
      | Except.error msg => Outcome.errMeta msg
      | Except.ok meta =>
        if ¬ lowerStr meta.VCS = "git" then
          Outcome.errVCS ("Unsupported VCS type: " ++ meta.VCS)
        else Outcome.gitMeta meta.RepoRoot

/-- A stored tar path is in the modelled domain of `filepath.Join`'s
cleaning when none of its segments is `"."` or `".."`. -/
def wfName (name : String) : Bool :=
  (splitSlash name).all (fun seg => ¬ seg = "." && ¬ seg = "..")

/-! ## Claims about the extraction filter (C1, C2) -/

/-- The project of the C1 counterexample: an empty package list, hence
an empty allow-set. -/
def pjC1 : Project := ⟨"p", "", "rev", "", "", []⟩

/-- The archive of the C1 counterexample: one regular file three
segments deep (`wrapper/foo/a.txt`). -/
def entC1 : TarEntry := ⟨"W/foo/a.txt", TarType.reg, "", [104], 420⟩

/-- C1 counterexample.  The claim says that with an empty allow-set
every non-root entry under the wrapper is written.  With an empty
package table, `pj.subdirTable[pkg]` is `false` for every key, so the
filter skips every entry whose stored path has more than two segments:
extracting the archive `[W/foo/a.txt]` for a project with no packages
succeeds but writes nothing at `vendor/p/foo/a.txt`. -/
theorem empty_allowset_skips_deep_entry :
    pjC1.packages = [] ∧
    (targetRel (splitSlash entC1.name)).isEmpty = false ∧
    entryKept pjC1 entC1.name = false ∧
    (extractRun pjC1 [entC1] fsEmpty).2 = true ∧
    (extractRun pjC1 [entC1] fsEmpty).1 ["vendor", "p", "foo", "a.txt"] = none := by
  decide

/-- C1 amended.  With an empty allow-set, an entry reaches the write
switch exactly when its stored path has at most two slash-separated
segments and strips to a non-empty target: every entry with more than
two segments is skipped by the package filter.  (`wfName` keeps the
path inside the modelled domain of `filepath.Join`'s cleaning.) -/
theorem empty_allowset_retains_only_shallow (pj : Project) (name : String)
    (hp : pj.packages = []) (hw : wfName name = true) :
    entryKept pj name = true ↔
      ((splitSlash name).length ≤ 2 ∧ (targetRel (splitSlash name)).isEmpty = false) := by
  have hl : ∀ k, subdirLookup pj k = false := by
    intro k
    simp [subdirLookup, allowSet, hp]
  unfold entryKept
  by_cases h : (splitSlash name).length > 2
  · rw [if_pos h, hl]
    simp
    omega
  · rw [if_neg h]
    simp
    omega

/-- Witness for the amended C1: a two-segment entry is written under an
empty allow-set. -/
theorem empty_allowset_retains_only_shallow_witness :
    entryKept pjC1 "W/a.txt" = true :=
  (empty_allowset_retains_only_shallow pjC1 "W/a.txt" rfl (by decide)).mpr (by decide)

/-- The project of the C2 counterexample: allow-set `{"foo"}`. -/
def pjC2 : Project := ⟨"p", "", "rev", "", "", ["foo"]⟩

/-- C2 counterexample.  The claim says a deep entry is retained iff its
second original segment is in the allow-set, never deciding by a nested
subpath.  For `W/foo/sub/a.txt` the second segment `"foo"` is in the
allow-set, yet the filter skips the entry: the code tests the joined
intermediate path `"foo/sub"` against the table, not the immediate
child. -/
theorem pkg_filter_nested_counterexample :
    subdirLookup pjC2 "foo" = true ∧
    (splitSlash "W/foo/sub/a.txt").get? 1 = some "foo" ∧
    2 < (splitSlash "W/foo/sub/a.txt").length ∧
    entryKept pjC2 "W/foo/sub/a.txt" = false ∧
    joinRel ((splitSlash "W/foo/sub/a.txt").drop 1).dropLast = "foo/sub" := by
  decide

/-- C2 amended.  For a stored path with more than two segments and a
non-empty allow-set, the entry reaches the write switch exactly when
the join of all original segments strictly between the first and the
last (the wrapper-stripped directory of the entry) is a member of the
allow-set, and the stripped target is non-empty. -/
theorem pkg_filter_tests_joined_path (pj : Project) (name : String)
    (hne : ¬ allowSet pj = []) (hw : wfName name = true)
    (hlen : 2 < (splitSlash name).length) :
    entryKept pj name = true ↔
      (subdirLookup pj (joinRel ((splitSlash name).drop 1).dropLast) = true ∧
        (targetRel (splitSlash name)).isEmpty = false) := by
  unfold entryKept
  rw [if_pos hlen]
  simp

/-- Witness for the amended C2: `W/foo/a.txt` is retained under
allow-set `{"foo"}`. -/
theorem pkg_filter_tests_joined_path_witness :
    entryKept pjC2 "W/foo/a.txt" = true :=
  (pkg_filter_tests_joined_path pjC2 "W/foo/a.txt" (by decide) (by decide) (by decide)).mpr
    (by decide)

/-! ## C8: argument roles of `os.Symlink(target, hdr.Linkname)` -/

/-- C8.  For a retained symbolic-link entry the extraction creates the
filesystem object at the path given by the entry's `Linkname` field,
pointing at the computed target path — while a regular-file or
directory entry creates its object at the computed target path
itself. -/
theorem symlink_created_at_linkname (pj : Project) (s : FS) (e : TarEntry)
    (hk : entryKept pj e.name = true) :
    (e.typeflag = TarType.symlink → s (linkPath e) = none →
      extractStep pj s e = some (fsUpdate s (linkPath e) (Node.link (targetAbs pj e)))) ∧
    (e.typeflag = TarType.reg → s (targetAbs pj e) = none →
      extractStep pj s e = some (fsUpdate s (targetAbs pj e) (Node.file e.content e.mode))) ∧
    (e.typeflag = TarType.dir →
      extractStep pj s e = some (mkdirAll (targetAbs pj e) s)) := by
  refine ⟨?_, ?_, ?_⟩
  · intro hty hnone
    unfold extractStep
    rw [if_pos hk, hty, hnone]
  · intro hty hnone
    unfold extractStep
    rw [if_pos hk, hty, hnone]
  · intro hty
    unfold extractStep
    rw [if_pos hk, hty]

/-- The symlink entry used to witness C8. -/
def entC8 : TarEntry := ⟨"W/s", TarType.symlink, "L", [], 511⟩

/-- Witness for C8: on an empty filesystem, the symlink entry `W/s`
with `Linkname = "L"` creates a node at `["L"]` pointing at
`vendor/p/s`. -/
theorem symlink_created_at_linkname_witness :
    extractStep pjC1 fsEmpty entC8
      = some (fsUpdate fsEmpty (linkPath entC8) (Node.link (targetAbs pjC1 entC8))) :=
  (symlink_created_at_linkname pjC1 fsEmpty entC8 (by decide)).1 rfl rfl

/-! ## C10: `dlGit` delegates github-looking remotes to `dlGithub` -/

/-- C10.  A remote path matching the github pattern makes `dlGit`
delegate to the archive fetch with the two captured groups and issue no
git-client action; clone and reset are issued only for paths that do
not match. -/
theorem dlGit_github_delegates (pj : Project) (path : String) :
    (∀ m u r, githubFind path = some (m, u, r) → dlGit pj path = [Eff.archiveFetch u r]) ∧
    (githubFind path = none →
      dlGit pj path = [Eff.mkdirParent, Eff.removeAll, Eff.gitClone path, Eff.gitReset pj.revision]) ∧
    (∀ url, Eff.gitClone url ∈ dlGit pj path → githubFind path = none) := by
  refine ⟨?_, ?_, ?_⟩
  · intro m u r h
    unfold dlGit
    rw [h]
  · intro h
    unfold dlGit
    rw [h]
  · intro url hmem
    cases h : githubFind path with
    | none => rfl
    | some x =>
      unfold dlGit at hmem
      rw [h] at hmem
      simp at hmem

/-- Witness for C10: `https://github.com/a/b` is delegated to the
archive fetch for owner `a`, repository `b`. -/
theorem dlGit_github_delegates_witness :
    dlGit pjC1 "https://github.com/a/b" = [Eff.archiveFetch "a" "b"] :=
  (dlGit_github_delegates pjC1 "https://github.com/a/b").1 "github.com/a/b" "a" "b" (by decide)

/-! ## C6: resolver classification order -/

/-- C6.  The resolver classifies the explicit source when non-empty,
else the entry name; the github pattern is tried first and dispatches
the archive fetch with exactly the captured groups; next the gopkg
pattern dispatches the raw VCS fetch with the computed URL; otherwise
meta-import discovery supplies the remote. -/
theorem resolver_priority (pj : Project) (toks : List XmlToken) :
    (srcOf pj = if pj.source.length = 0 then pj.name else pj.source) ∧
    (∀ m u r, githubFind (srcOf pj) = some (m, u, r) →
      download pj toks = Outcome.archive u r) ∧
    (githubFind (srcOf pj) = none → gopkgMatches (srcOf pj) = true →
      download pj toks
        = Outcome.git (if hasPfx "https://" (srcOf pj) then "" else "https://" ++ srcOf pj)) ∧
    (githubFind (srcOf pj) = none → gopkgMatches (srcOf pj) = false →
      download pj toks
        = (match getGoImports toks with
          | Except.error msg => Outcome.errMeta msg
          | Except.ok meta =>
            if ¬ lowerStr meta.VCS = "git" then
              Outcome.errVCS ("Unsupported VCS type: " ++ meta.VCS)
            else Outcome.gitMeta meta.RepoRoot)) := by
  refine ⟨rfl, ?_, ?_, ?_⟩
  · intro m u r h
    unfold download
    rw [h]
  · intro h hm
    unfold download
    rw [h]
    simp [hm]
  · intro h hm
    unfold download
    rw [h]
    simp [hm]

/-- The github-classified project used to witness C6. -/
def pjC6 : Project := ⟨"github.com/foo/bar", "", "rev", "", "", []⟩

/-- Witness for C6: the entry named `github.com/foo/bar` (no explicit
source) is dispatched to the archive fetch with owner `foo`,
repository `bar`. -/
theorem resolver_priority_witness :
    download pjC6 [] = Outcome.archive "foo" "bar" :=
  (resolver_priority pjC6 []).2.1 "github.com/foo/bar" "foo" "bar" (by decide)

/-! ## C9: gopkg source already carrying `https://` yields an empty URL -/

/-- C9.  When the classified source reaches the gopkg branch and
already begins with `https://`, the secure prefix is not prepended and
no other assignment happens, so the URL handed to `dlGit` is the empty
string. -/
theorem gopkg_https_empty_url (pj : Project) (toks : List XmlToken)
    (hg : githubFind (srcOf pj) = none) (hm : gopkgMatches (srcOf pj) = true)
    (hp : hasPfx "https://" (srcOf pj) = true) :
    download pj toks = Outcome.git "" := by
  unfold download
  rw [hg]
  simp [hm, hp]

/-- The project used to witness C9. -/
def pjC9 : Project := ⟨"p", "", "rev", "", "https://gopkg.in/yaml.v2", []⟩

/-- Witness for C9: source `https://gopkg.in/yaml.v2` reaches the
gopkg branch and `dlGit` receives `""`. -/
theorem gopkg_https_empty_url_witness :
    download pjC9 [] = Outcome.git "" :=
  gopkg_https_empty_url pjC9 [] (by decide) (by decide) (by decide)

/-! ## C5: non-git discovery results fail before any clone -/

/-- C5.  When an entry falls through to meta-import discovery and the
discovered vcs-kind is not `git` (case-insensitively), `download`
panics with the unsupported-VCS error naming the kind, and no `dlGit`
call — hence no clone — and no archive fetch is dispatched. -/
theorem unsupported_vcs_no_clone (pj : Project) (toks : List XmlToken) (meta : metaImport)
    (hg : githubFind (srcOf pj) = none) (hm : gopkgMatches (srcOf pj) = false)
    (hok : getGoImports toks = Except.ok meta) (hvcs : ¬ lowerStr meta.VCS = "git") :
    download pj toks = Outcome.errVCS ("Unsupported VCS type: " ++ meta.VCS) ∧
    (∀ url, ¬ download pj toks = Outcome.git url) ∧
    (∀ rr, ¬ download pj toks = Outcome.gitMeta rr) ∧
    (∀ u r, ¬ download pj toks = Outcome.archive u r) := by
  have hd : download pj toks = Outcome.errVCS ("Unsupported VCS type: " ++ meta.VCS) := by
    unfold download
    rw [hg]
    simp [hm, hok, hvcs]
  refine ⟨hd, ?_, ?_, ?_⟩
  · intro url h
    rw [hd] at h
    exact Outcome.noConfusion h
  · intro rr h
    rw [hd] at h
    exact Outcome.noConfusion h
  · intro u r h
    rw [hd] at h
    exact Outcome.noConfusion h

/-- The svn discovery page of the C5 witness. -/
def toksC5 : List XmlToken :=
  [XmlToken.startElem "meta"
    [("name", "go-import"), ("content", "example.org/pkg svn https://svn.example.org/repo")]]

/-- The vanity-path project of the C5 witness. -/
def pjC5 : Project := ⟨"example.org/pkg", "", "rev", "", "", []⟩

/-- Witness for C5: a discovered `svn` kind panics with the
unsupported-VCS message and dispatches nothing else. -/
theorem unsupported_vcs_no_clone_witness :
    download pjC5 toksC5 = Outcome.errVCS "Unsupported VCS type: svn" :=
  (unsupported_vcs_no_clone pjC5 toksC5 ⟨"example.org/pkg", "svn", "https://svn.example.org/repo"⟩
    (by decide) (by decide) rfl (by decide)).1

/-! ## C4: discovery succeeds exactly on a single collected tag -/

/-- C4.  `getGoImports` yields a result exactly when parsing collected
one redirect tag; for zero or several the ambiguity error names the
collected candidates. -/
theorem discovery_unique_tag (toks : List XmlToken) :
    ((∃ m, getGoImports toks = Except.ok m) ↔ (parseMetaGoImports toks).length = 1) ∧
    (¬ (parseMetaGoImports toks).length = 1 →
      getGoImports toks
        = Except.error ("Too many imports: " ++ goFormatImports (parseMetaGoImports toks))) := by
  unfold getGoImports
  cases hl : parseMetaGoImports toks with
  | nil => simp
  | cons a tl =>
    cases tl with
    | nil => simp
    | cons b tl2 => simp

/-- The two-tag discovery page of the C4 witness. -/
def toksC4 : List XmlToken :=
  [XmlToken.startElem "meta" [("name", "go-import"), ("content", "a b c")],
   XmlToken.startElem "meta" [("name", "go-import"), ("content", "d e f")]]

/-- Witness for C4: two collected tags produce the ambiguity error
listing both candidates. -/
theorem discovery_unique_tag_witness :
    getGoImports toksC4
      = Except.error ("Too many imports: " ++ goFormatImports (parseMetaGoImports toksC4)) :=
  (discovery_unique_tag toksC4).2 (by decide)

/-! ## C3: the go-source replacement rule -/

/-- Folded tag names equal to `meta` are not equal to `body`. -/
theorem eqFold_meta_not_body (n : String) (h : eqFold n "meta" = true) :
    eqFold n "body" = false := by
  unfold eqFold at h ⊢
  have h2 : n.toList.map Char.toLower = "meta".toList.map Char.toLower := eq_of_beq h
  rw [h2]
  decide

/-- A `go-import` step never rewrites what was collected: it keeps the
list or appends one tag. -/
theorem goImportStep_shape (acc : List metaImport) (attrs : List (String × String)) :
    goImportStep acc attrs = acc ∨ ∃ x, goImportStep acc attrs = acc ++ [x] := by
  unfold goImportStep
  by_cases hn : ¬ attrValue attrs "name" = "go-import"
  · rw [if_pos hn]
    left
    rfl
  · rw [if_neg hn]
    cases hf : goFields (attrValue attrs "content") with
    | nil => left; rfl
    | cons a tl =>
      cases tl with
      | nil => left; rfl
      | cons b tl2 =>
        cases tl2 with
        | nil => left; rfl
        | cons c tl3 =>
          cases tl3 with
          | nil => right; exact ⟨⟨a, b, c⟩, rfl⟩
          | cons d tl4 => left; rfl

/-- C3.  Encountering a `go-source` meta tag whose content matches the
github pattern while exactly one redirect tag has been collected
replaces that tag by one with the same prefix, vcs-kind `git` and
repo-root the matched reference; and this in-place replacement is the
only way a parse step rewrites the collected list (every other step
keeps it or appends one tag). -/
theorem gosource_overwrite :
    (∀ (i0 : metaImport) (n : String) (attrs : List (String × String)) (m u r : String),
      eqFold n "meta" = true →
      attrValue attrs "name" = "go-source" →
      githubFind (attrValue attrs "content") = some (m, u, r) →
      parseStep [i0] (XmlToken.startElem n attrs) = Step.cont [⟨i0.Pfx, "git", m⟩]) ∧
    (∀ (acc : List metaImport) (t : XmlToken) (acc2 : List metaImport),
      parseStep acc t = Step.cont acc2 →
      acc2 = acc ∨ (∃ x, acc2 = acc ++ [x]) ∨
      (∃ i0 n attrs m u r,
        acc = [i0] ∧ t = XmlToken.startElem n attrs ∧
        attrValue attrs "name" = "go-source" ∧
        githubFind (attrValue attrs "content") = some (m, u, r) ∧
        acc2 = [⟨i0.Pfx, "git", m⟩])) := by
  refine ⟨?_, ?_⟩
  · intro i0 n attrs m u r hmeta hname hmatch
    simp only [parseStep]
    rw [eqFold_meta_not_body n hmeta, hmeta]
    simp only [Bool.false_eq_true, if_false, if_true]
    unfold metaTagStep
    rw [hname, hmatch]
    simp
  · intro acc t acc2 h
    cases t with
    | other =>
      simp only [parseStep] at h
      injection h with h2
      left
      exact h2.symm
    | endElem nm =>
      simp only [parseStep] at h
      by_cases hb : eqFold nm "head" = true
      · rw [if_pos hb] at h
        exact absurd h (by simp)
      · rw [if_neg hb] at h
        injection h with h2
        left
        exact h2.symm
    | startElem nm attrs =>
      simp only [parseStep] at h
      by_cases hb : eqFold nm "body" = true
      · rw [if_pos hb] at h
        exact absurd h (by simp)
      · rw [if_neg hb] at h
        by_cases hm : eqFold nm "meta" = true
        · rw [if_pos hm] at h
          injection h with h2
          unfold metaTagStep at h2
          by_cases hn : attrValue attrs "name" = "go-source"
          · rw [if_pos hn] at h2
            cases hacc : acc with
            | nil =>
              rw [hacc] at h2
              rcases goImportStep_shape [] attrs with hs | ⟨x, hs⟩
              · left; rw [← h2]; exact hs
              · right; left; exact ⟨x, by rw [← h2]; exact hs⟩
            | cons i0 tl =>
              cases tl with
              | nil =>
                rw [hacc] at h2
                cases hg : githubFind (attrValue attrs "content") with
                | none =>
                  rw [hg] at h2
                  rcases goImportStep_shape [i0] attrs with hs | ⟨x, hs⟩
                  · left; rw [← h2]; exact hs
                  · right; left; exact ⟨x, by rw [← h2]; exact hs⟩
                | some g =>
                  rw [hg] at h2
                  right; right
                  exact ⟨i0, nm, attrs, g.1, g.2.1, g.2.2, rfl, rfl, hn, by rw [hg], by rw [← h2]⟩
              | cons i1 tl2 =>
                rw [hacc] at h2
                rcases goImportStep_shape (i0 :: i1 :: tl2) attrs with hs | ⟨x, hs⟩
                · left; rw [← h2]; exact hs
                · right; left; exact ⟨x, by rw [← h2]; exact hs⟩
          · rw [if_neg hn] at h2
            rcases goImportStep_shape acc attrs with hs | ⟨x, hs⟩
            · left; rw [← h2]; exact hs
            · right; left; exact ⟨x, by rw [← h2]; exact hs⟩
        · rw [if_neg hm] at h
          injection h with h2
          left
          exact h2.symm

/-- Witness for C3: with one collected tag, a `go-source` tag whose
content embeds `github.com/u/r` replaces it by
`(same prefix, git, github.com/u/r)`. -/
theorem gosource_overwrite_witness :
    parseStep [⟨"example.org/pkg", "git", "https://host/o/r"⟩]
        (XmlToken.startElem "meta"
          [("name", "go-source"), ("content", "https://github.com/u/r tree")])
      = Step.cont [⟨"example.org/pkg", "git", "github.com/u/r"⟩] :=
  gosource_overwrite.1 ⟨"example.org/pkg", "git", "https://host/o/r"⟩ "meta"
    [("name", "go-source"), ("content", "https://github.com/u/r tree")]
    "github.com/u/r" "u" "r" (by decide) (by decide) (by decide)

/-! ## C7: re-running extraction

The filter and the regular-file/directory writes read and write only
paths below the target root, which the run removes first, so from any
two starting states the runs evolve identically under the root.  The
one exception is `os.Symlink`: it creates at the entry's `Linkname`
path, which need not lie below the target root, and it fails when that
path already exists — so a first run can leave a node that makes the
second run abort early.
-/

/-- A path extended below stays below. -/
theorem pathLe_append (b r : Path) : pathLe b (b ++ r) = true := by
  induction b with
  | nil => rfl
  | cons a as ih => simp [pathLe, ih]

/-- The target of a kept entry lies below the target root. -/
theorem pathLe_targetAbs (pj : Project) (e : TarEntry) :
    pathLe (basePath pj) (targetAbs pj e) = true :=
  pathLe_append (basePath pj) (targetRel (splitSlash e.name))

/-- Restriction to the target root is extensional agreement below it. -/
theorem restrictBase_eq_iff (pj : Project) (s1 s2 : FS) :
    restrictBase pj s1 = restrictBase pj s2 ↔
      ∀ p, pathLe (basePath pj) p = true → s1 p = s2 p := by
  constructor
  · intro h p hp
    have h2 := congrFun h p
    unfold restrictBase at h2
    rw [if_pos hp, if_pos hp] at h2
    exact h2
  · intro h
    funext p
    unfold restrictBase
    by_cases hp : pathLe (basePath pj) p = true
    · rw [if_pos hp, if_pos hp, h p hp]
    · rw [if_neg hp, if_neg hp]

/-- Point updates at one path preserve agreement below the root. -/
theorem fsUpdate_agree (pj : Project) (s1 s2 : FS) (t : Path) (v : Node)
    (h : ∀ p, pathLe (basePath pj) p = true → s1 p = s2 p) :
    ∀ p, pathLe (basePath pj) p = true → fsUpdate s1 t v p = fsUpdate s2 t v p := by
  intro p hp
  unfold fsUpdate
  cases hpt : (p == t) with
  | true => rfl
  | false => simp [h p hp]

/-- `mkdirAll` preserves agreement below the root. -/
theorem mkdirAll_agree (pj : Project) (s1 s2 : FS) (t : Path)
    (h : ∀ p, pathLe (basePath pj) p = true → s1 p = s2 p) :
    ∀ p, pathLe (basePath pj) p = true → mkdirAll t s1 p = mkdirAll t s2 p := by
  intro p hp
  unfold mkdirAll
  rw [h p hp]

/-- One extraction step started from two states that agree below the
target root fails in both or succeeds in both with results that again
agree below the root — provided a symlink entry's link path lies below
the root (the reads and writes of the other entry kinds stay below it
by construction). -/
theorem extractStep_agree (pj : Project) (e : TarEntry) (s1 s2 : FS)
    (hlink : e.typeflag = TarType.symlink → pathLe (basePath pj) (linkPath e) = true)
    (h : ∀ p, pathLe (basePath pj) p = true → s1 p = s2 p) :
    (extractStep pj s1 e = none ∧ extractStep pj s2 e = none) ∨
    (∃ t1 t2, extractStep pj s1 e = some t1 ∧ extractStep pj s2 e = some t2 ∧
      ∀ p, pathLe (basePath pj) p = true → t1 p = t2 p) := by
  by_cases hk : entryKept pj e.name = true
  · have ht : s1 (targetAbs pj e) = s2 (targetAbs pj e) := h _ (pathLe_targetAbs pj e)
    cases hty : e.typeflag with
    | reg =>
      cases hv : s1 (targetAbs pj e) with
      | none =>
        right
        refine ⟨fsUpdate s1 (targetAbs pj e) (Node.file e.content e.mode),
                fsUpdate s2 (targetAbs pj e) (Node.file e.content e.mode), ?_, ?_,
                fsUpdate_agree pj s1 s2 _ _ h⟩
        · unfold extractStep
          rw [if_pos hk, hty, hv]
        · unfold extractStep
          rw [if_pos hk, hty, ← ht, hv]
      | some v =>
        cases v with
        | file old oldMode =>
          right
          refine ⟨fsUpdate s1 (targetAbs pj e) (Node.file (overlay e.content old) oldMode),
                  fsUpdate s2 (targetAbs pj e) (Node.file (overlay e.content old) oldMode), ?_, ?_,
                  fsUpdate_agree pj s1 s2 _ _ h⟩
          · unfold extractStep
            rw [if_pos hk, hty, hv]
          · unfold extractStep
            rw [if_pos hk, hty, ← ht, hv]
        | dir =>
          left
          constructor
          · unfold extractStep
            rw [if_pos hk, hty, hv]
          · unfold extractStep
            rw [if_pos hk, hty, ← ht, hv]
        | link dest =>
          left
          constructor
          · unfold extractStep
            rw [if_pos hk, hty, hv]
          · unfold extractStep
            rw [if_pos hk, hty, ← ht, hv]
    | dir =>
      right
      refine ⟨mkdirAll (targetAbs pj e) s1, mkdirAll (targetAbs pj e) s2, ?_, ?_,
              mkdirAll_agree pj s1 s2 _ h⟩
      · unfold extractStep
        rw [if_pos hk, hty]
      · unfold extractStep
        rw [if_pos hk, hty]
    | symlink =>
      have hlp : s1 (linkPath e) = s2 (linkPath e) := h _ (hlink hty)
      cases hv : s1 (linkPath e) with
      | none =>
        right
        refine ⟨fsUpdate s1 (linkPath e) (Node.link (targetAbs pj e)),
                fsUpdate s2 (linkPath e) (Node.link (targetAbs pj e)), ?_, ?_,
                fsUpdate_agree pj s1 s2 _ _ h⟩
        · unfold extractStep
          rw [if_pos hk, hty, hv]
        · unfold extractStep
          rw [if_pos hk, hty, ← hlp, hv]
      | some v =>
        left
        constructor
        · unfold extractStep
          rw [if_pos hk, hty, hv]
        · unfold extractStep
          rw [if_pos hk, hty, ← hlp, hv]
    | other =>
      right
      refine ⟨s1, s2, ?_, ?_, h⟩
      · unfold extractStep
        rw [if_pos hk, hty]
      · unfold extractStep
        rw [if_pos hk, hty]
  · right
    refine ⟨s1, s2, ?_, ?_, h⟩
    · unfold extractStep
      rw [if_neg hk]
    · unfold extractStep
      rw [if_neg hk]

/-- The whole extraction loop started from two states that agree below
the target root produces the same success flag and results that agree
below the root. -/
theorem foldSteps_agree (pj : Project) (ents : List TarEntry) :
    ∀ s1 s2 : FS,
      (∀ e ∈ ents, e.typeflag = TarType.symlink → pathLe (basePath pj) (linkPath e) = true) →
      (∀ p, pathLe (basePath pj) p = true → s1 p = s2 p) →
      (∀ p, pathLe (basePath pj) p = true →
        (foldSteps pj s1 ents).1 p = (foldSteps pj s2 ents).1 p) ∧
      (foldSteps pj s1 ents).2 = (foldSteps pj s2 ents).2 := by
  induction ents with
  | nil =>
    intro s1 s2 _ h
    exact ⟨h, rfl⟩
  | cons e es ih =>
    intro s1 s2 hl h
    rcases extractStep_agree pj e s1 s2 (hl e (List.mem_cons_self e es)) h with
      ⟨h1, h2⟩ | ⟨t1, t2, h1, h2, hag⟩
    · unfold foldSteps
      rw [h1, h2]
      exact ⟨h, rfl⟩
    · unfold foldSteps
      rw [h1, h2]
      exact ih t1 t2 (fun e2 he2 => hl e2 (List.mem_cons_of_mem e he2)) hag

/-- The remove-then-recreate prologue erases every difference below
the target root, whatever the two starting states were. -/
theorem extract_init_agree (pj : Project) (s1 s2 : FS) :
    ∀ p, pathLe (basePath pj) p = true →
      mkdirAll (basePath pj) (removeAllUnder (basePath pj) s1) p =
      mkdirAll (basePath pj) (removeAllUnder (basePath pj) s2) p := by
  intro p hp
  unfold mkdirAll removeAllUnder
  rw [if_pos hp, if_pos hp]

/-- C7 amended.  Re-running extraction for the same entry and archive
yields an identical tree under the target root, provided every
symbolic-link entry's recorded link-name path lies below the target
root (so that the remove-then-recreate prologue erases it).  A symlink
entry whose link name falls outside the target root survives the
prologue and makes the second run's `os.Symlink` fail, which can leave
a different tree (see the counterexample). -/
theorem extract_rerun_same_tree (pj : Project) (ents : List TarEntry) (s : FS)
    (hl : ∀ e ∈ ents, e.typeflag = TarType.symlink →
      pathLe (basePath pj) (linkPath e) = true) :
    restrictBase pj (extractRun pj ents (extractRun pj ents s).1).1
      = restrictBase pj (extractRun pj ents s).1 := by
  rw [restrictBase_eq_iff]
  unfold extractRun
  exact (foldSteps_agree pj ents _ _ hl (extract_init_agree pj _ _)).1

/-- The archive of the C7 counterexample: a symlink whose link name
`L` lies outside the target root, then a regular file. -/
def entsC7 : List TarEntry :=
  [⟨"W/s", TarType.symlink, "L", [], 511⟩, ⟨"W/a.txt", TarType.reg, "", [104], 420⟩]

/-- C7 counterexample.  Extracting `entsC7` once from an empty
filesystem writes `vendor/p/a.txt`; extracting a second time from the
result leaves the symlink's node at `L` in place (it is outside the
removed target), so `os.Symlink` fails and the run aborts before
`vendor/p/a.txt` is rewritten: the two resulting trees under the
target root differ at that path, refuting byte-identical re-runs. -/
theorem extract_rerun_differs :
    (restrictBase pjC1 (extractRun pjC1 entsC7 fsEmpty).1) ["vendor", "p", "a.txt"]
        = some (Node.file [104] 420) ∧
    (restrictBase pjC1 (extractRun pjC1 entsC7 (extractRun pjC1 entsC7 fsEmpty).1).1)
        ["vendor", "p", "a.txt"] = none ∧
    (extractRun pjC1 entsC7 (extractRun pjC1 entsC7 fsEmpty).1).2 = false := by
  refine ⟨by decide, by decide, by decide⟩

/-- Witness for the amended C7: an archive with no symlink entries
re-extracts to the identical tree. -/
theorem extract_rerun_same_tree_witness :
    restrictBase pjC1 (extractRun pjC1 [entC1] (extractRun pjC1 [entC1] fsEmpty).1).1
      = restrictBase pjC1 (extractRun pjC1 [entC1] fsEmpty).1 :=
  extract_rerun_same_tree pjC1 [entC1] fsEmpty (by decide)

end DepDl
